import Mathlib

/-!
# Verification of the ElectronCounting Cython module

Shallow embedding of the core of `c_electron_counting.pyx` (the canonical
variant with `only_integrate` support and adaptive `peak_max` tracking),
together with the legacy variant of `find_most_likely_counts` where the two
differ (the zero fast path uses no epsilon offset there).

Modelling conventions:
* C `float` values are modelled as exact rationals `ℚ`; all comparisons the
  code performs are order comparisons, which the rational model preserves.
* The probability `c_count_probability(counts, x)` is computed by the source
  with transcendental float functions (`sqrt`, `exp`, `pow`); its value is
  abstracted as a parameter `P : ℕ → ℚ → ℚ` throughout, and all theorems about
  the count search are parametric in `P`.  Likewise the derived constant
  `peak_height = countlevel/peakwidth/(atan(10) - atan(-10))` of
  `c_electron_counting` is transcendental and is taken as a parameter.
* The C `rand()` source is modelled as a stream `randStream : ℕ → ℕ` of raw
  draws in `[0, RAND_MAX]`, indexed by the number of draws made so far.
* The per-row scan (the `while i < width` loop of `c_electron_counting`) is a
  state machine; the state additionally records every column index at which
  the image row is read and every `(index, value)` pair written to the result
  row, so that bounds and data-flow claims can be stated.  The image row is a
  total function `ℤ → ℚ` because the code, compiled with `boundscheck=False`,
  can read outside the row; the `reads` log is what makes such accesses
  observable in the model.
-/

/-- length of the precomputed factorial table (`DEF factorials_table_length = 20`). -/
def factorials_table_length : ℕ := 20

/-- value of the C constant `RAND_MAX` on the target platform (2^31 - 1). -/
def c_RAND_MAX : ℕ := 2147483647

/-- semantics of the C library function `round`: nearest integer, ties rounded
away from zero. -/
def c_round (q : ℚ) : ℤ := if 0 ≤ q then ⌊q + 1/2⌋ else -⌊-q + 1/2⌋

/-- semantics of a C cast from a floating value to an integer type:
truncation toward zero. -/
def c_trunc (q : ℚ) : ℤ := if 0 ≤ q then ⌊q⌋ else -⌊-q⌋

/-- conversion of a raw `rand()` draw into a restart offset, from
`randnum = <int>(<float>rand() / <float>RAND_MAX * <float>peaklength)`.
The division is modelled as exact rational arithmetic; the source performs it
in 32-bit floats, whose rounding can shift individual values near the top of
the draw range (the float cast of a draw close to RAND_MAX rounds up to 2^31,
so the ratio 1.0 — and with it the offset peaklength — is attained by the
float computation on several near-maximal draws, not only on RAND_MAX itself).
The theorems below use only facts on which the exact and the float computation
agree: the bounds 0 ≤ randnum ≤ peaklength, and the concrete values at the
draws 2^29 (ratio exactly 1/4 in both) and RAND_MAX (ratio exactly 1.0 in
both). -/
def rand_randnum (r : ℕ) (peaklength : ℤ) : ℤ :=
  c_trunc ((r : ℚ) / (c_RAND_MAX : ℚ) * (peaklength : ℚ))

/-- one pass of the `while` loop of `create_factorials_table`: a table already
holding `counter` entries gains entry `counter = table[counter-1] * counter`
(the value spliced in is `getLastD` of the current table times its length). -/
def fact_loop : ℕ → List ℤ → List ℤ
  | 0, tbl => tbl
  | fuel + 1, tbl => fact_loop fuel (tbl ++ [tbl.getLastD 1 * (tbl.length : ℤ)])

/-- the function `create_factorials_table(length)`: `table[0] = 1`, then
`table[counter] = table[counter-1] * counter` for `counter = 1 .. length-1`.
All entries fit in a C `long` for `length = 20` (19! < 2^63), so `ℤ` is a
faithful model of the source's 64-bit arithmetic. -/
def create_factorials_table (length : ℕ) : List ℤ :=
  fact_loop (length - 1) [1]

/-- the module-level array `factorials_table` as populated by
`create_factorials_table(factorials_table_length)` at the start of every
counting operation. -/
def factorials_table : List ℤ :=
  create_factorials_table factorials_table_length

/-- the `while counter < factorials_table_length` loop of
`c_find_most_likely_counts`, with `fuel = factorials_table_length - counter`.
`maxP` is the variable `max_probability` (which always holds the probability
computed in the previous iteration).  The result pairs the returned count with
the list of `counter` values at which `c_count_probability` was evaluated, in
evaluation order; `p` is the probability function `n ↦ P(n, x)` for the fixed
input `x`.  Falling off the loop returns `factorials_table_length`. -/
def fmlc_loop (p : ℕ → ℚ) : ℕ → ℕ → ℚ → ℤ × List ℕ
  | 0, _counter, _maxP => ((factorials_table_length : ℤ), [])
  | fuel + 1, counter, maxP =>
    let cur := p counter
    if cur < maxP then ((counter : ℤ) - 1, [counter])
    else
      let rest := fmlc_loop p fuel (counter + 1) cur
      (rest.1, counter :: rest.2)

/-- the function `c_find_most_likely_counts(x)` of the canonical variant:
fast path returning 0 when `round(x + 0.25) == 0.0`, otherwise the search
loop started at `counter = 0` with `max_probability = 0`.  First component of
the result: the returned count; second component: the list of counts at which
the probability formula was evaluated. -/
def c_find_most_likely_counts_full (P : ℕ → ℚ → ℚ) (x : ℚ) : ℤ × List ℕ :=
  if c_round (x + 1/4) = 0 then (0, [])
  else fmlc_loop (fun n => P n x) factorials_table_length 0 0

/-- returned count of `c_find_most_likely_counts(x)` (canonical variant). -/
def c_find_most_likely_counts (P : ℕ → ℚ → ℚ) (x : ℚ) : ℤ :=
  (c_find_most_likely_counts_full P x).1

/-- counts at which `c_count_probability` is evaluated during
`c_find_most_likely_counts(x)` (canonical variant), in evaluation order. -/
def c_find_most_likely_counts_evals (P : ℕ → ℚ → ℚ) (x : ℚ) : List ℕ :=
  (c_find_most_likely_counts_full P x).2

/-- the function `find_most_likely_counts(x)` of the legacy variant
(`ElectronCounting/c_electron_counting.pyx`): identical search loop, but the
zero fast path tests `round(x) == 0.0` with no epsilon offset. -/
def legacy_find_most_likely_counts_full (P : ℕ → ℚ → ℚ) (x : ℚ) : ℤ × List ℕ :=
  if c_round x = 0 then (0, [])
  else fmlc_loop (fun n => P n x) factorials_table_length 0 0

/-- returned count of the legacy `find_most_likely_counts(x)`. -/
def legacy_find_most_likely_counts (P : ℕ → ℚ → ℚ) (x : ℚ) : ℤ :=
  (legacy_find_most_likely_counts_full P x).1

/-- counts at which the probability formula is evaluated during the legacy
`find_most_likely_counts(x)`. -/
def legacy_find_most_likely_counts_evals (P : ℕ → ℚ → ℚ) (x : ℚ) : List ℕ :=
  (legacy_find_most_likely_counts_full P x).2

/-- the function `c_find_most_likely_counts_image`: for every pixel of the
input image, the count search applied to `(pixel - baseline) / countlevel`,
written (as a float) to the same position of the result image. -/
def c_find_most_likely_counts_image (P : ℕ → ℚ → ℚ) (image : List (List ℚ))
    (baseline countlevel : ℚ) : List (List ℚ) :=
  image.map fun imrow => imrow.map fun pix =>
    ((c_find_most_likely_counts P ((pix - baseline) / countlevel) : ℤ) : ℚ)

/-- parameters of the per-row scan of `c_electron_counting`, fixed for the
whole image call: the probability function, the image row (total on `ℤ`
because out-of-range accesses are representable), the row width, the user
configuration, and the constants derived from it before the row loop. -/
structure ScanParams where
  P : ℕ → ℚ → ℚ
  row : ℤ → ℚ
  width : ℤ
  baseline : ℚ
  threshold : ℚ
  peak_height : ℚ
  counts_divisor : ℚ
  peaklength : ℤ
  only_integrate : Bool
  randStream : ℕ → ℕ

/-- state of the per-row scan: the loop variable `i`, the peak start `index`
(-1 when no peak is active), the running `integral` and `peak_max`, the number
of `rand()` draws consumed so far, and the observation logs: every
`(index, value)` pair written to the result row and every column at which the
image row has been read. -/
structure ScanState where
  i : ℤ
  index : ℤ
  integral : ℚ
  peak_max : ℚ
  draws : ℕ
  writes : List (ℤ × ℚ)
  reads : List ℤ

/-- trailing conditional of the loop body
(`if index == -1 and image[k, i] - baseline > peak_max*threshold`): start a
new peak at the current column, then advance `i` by one (the `i += 1` closing
the loop body).  The comparison reads the image at the current column whenever
`index == -1` (short-circuit evaluation). -/
def step_start (ps : ScanParams) (st : ScanState) : ScanState :=
  if st.index = -1 then
    let str := { st with reads := st.reads ++ [st.i] }
    if ps.row st.i - ps.baseline > st.peak_max * ps.threshold then
      { str with index := st.i, integral := ps.row st.i,
                 reads := str.reads ++ [st.i], i := st.i + 1 }
    else
      { str with i := st.i + 1 }
  else
    { st with i := st.i + 1 }

/-- one iteration of the `while i < width` loop body of `c_electron_counting`
(the caller has checked `i < width`).  First conditional: close the active
peak when the sample has dropped to the termination threshold, the peak has
reached `peaklength`, or the row's last column is reached; write the integral
(or the estimated count) at the peak's start index; if the closing sample is
still above threshold, restart at the randomized offset
`index + 1 + randnum`, seeding the integral with the sample read there.
`elif` branch: accumulate the baseline-corrected sample and track `peak_max`.
The trailing conditional and `i += 1` are `step_start`. -/
def scan_step (ps : ScanParams) (st : ScanState) : ScanState :=
  if st.index ≠ -1 ∧ (ps.row st.i - ps.baseline ≤ st.peak_max * ps.threshold ∨
      st.i - st.index ≥ ps.peaklength ∨ st.i = ps.width - 1) then
    let wval : ℚ := if ps.only_integrate then st.integral
      else ((c_find_most_likely_counts ps.P (st.integral / ps.counts_divisor) : ℤ) : ℚ)
    let st1 : ScanState :=
      { st with writes := st.writes ++ [(st.index, wval)], integral := 0,
                reads := st.reads ++ [st.i, st.i] }
    if ps.row st.i - ps.baseline > st.peak_max * ps.threshold then
      let randnum : ℤ := rand_randnum (ps.randStream st.draws) ps.peaklength
      let inew : ℤ := st.index + 1 + randnum
      step_start ps
        { st1 with i := inew, index := inew, integral := ps.row inew,
                   draws := st.draws + 1, peak_max := ps.peak_height,
                   reads := st1.reads ++ [inew] }
    else
      step_start ps { st1 with index := -1, peak_max := ps.peak_height }
  else if st.index ≠ -1 then
    step_start ps
      { st with integral := st.integral + (ps.row st.i - ps.baseline),
                peak_max := if ps.row st.i > st.peak_max then ps.row st.i else st.peak_max,
                reads := st.reads ++ [st.i] }
  else
    step_start ps st

/-- the `while i < width` loop: iterate `scan_step` while `i < width`, with
explicit fuel (the source loop terminates because `index` strictly increases
at every randomized restart and `i` increases otherwise; any fuel of at least
`(width + 2)^2` steps is sufficient, and the theorems below are either
step-level or evaluated at concrete fuel). -/
def scan_go (ps : ScanParams) : ℕ → ScanState → ScanState
  | 0, st => st
  | fuel + 1, st => if st.i < ps.width then scan_go ps fuel (scan_step ps st) else st

/-- initial state of the per-row scan: `integral = 0`, `index = -1`, `i = 0`,
`peak_max = peak_height`; nothing read or written yet. -/
def init_scan_state (ps : ScanParams) : ScanState :=
  { i := 0, index := -1, integral := 0, peak_max := ps.peak_height,
    draws := 0, writes := [], reads := [] }

/-- derived constants of `c_electron_counting` (computed once, before the row
loop), for `integration_range_gamma = 2.0`:
`threshold = 1/(1 + gamma^2)`, `peaklength = round(2*gamma*peakwidth)`,
`counts_divisor = countlevel - baseline*peaklength`.  The remaining constant
`peak_height = countlevel/peakwidth/(atan(10) - atan(-10))` is transcendental
and is passed in as a parameter. -/
def mk_scan_params (P : ℕ → ℚ → ℚ) (peak_height : ℚ) (row : ℤ → ℚ) (width : ℤ)
    (baseline countlevel peakwidth : ℚ) (only_integrate : Bool)
    (randStream : ℕ → ℕ) : ScanParams :=
  { P := P, row := row, width := width, baseline := baseline,
    threshold := 1 / (1 + 2 ^ 2),
    peak_height := peak_height,
    counts_divisor := countlevel - baseline * ((c_round (2 * 2 * peakwidth) : ℤ) : ℚ),
    peaklength := c_round (2 * 2 * peakwidth),
    only_integrate := only_integrate,
    randStream := randStream }

/-- scan of one image row of `c_electron_counting` from the initial state. -/
def c_electron_counting_row (ps : ScanParams) (fuel : ℕ) : ScanState :=
  scan_go ps fuel (init_scan_state ps)

/-- sample unimodal probability family used to instantiate the parametric
theorems on concrete inputs: values 0, 1, 2 then decreasing, independent of x. -/
def probw : ℕ → ℚ → ℚ := fun n _ => if n ≤ 2 then (n : ℚ) else 4 - (n : ℚ)

/-- sample strictly increasing probability family (never decreasing within the
table range), used to instantiate the saturating-cap theorems. -/
def probinc : ℕ → ℚ → ℚ := fun n _ => (n : ℚ)

/-- scan parameters of the out-of-bounds failing input: a 2-column row of
constant sample 1, baseline 0, countlevel 1, peakwidth 1 (hence
threshold 1/5, peaklength 4), integrate-only mode, and a rand draw of 2^29
(which yields randnum 1).  The transcendental `peak_height` is instantiated
at 17/50; the true source value for this configuration lies in
(0.3398, 0.3400) and every value of that interval drives the identical trace,
as all comparisons involved are slack. -/
def ps_oob : ScanParams :=
  mk_scan_params probw (17/50) (fun _ => 1) 2 0 1 1 true (fun _ => 536870912)

/-- scan parameters of the randomized-restart boundary input: a 100-column row
of constant sample 1 with the same configuration as `ps_oob`, but with every
`rand()` draw equal to `RAND_MAX` (which yields randnum = peaklength = 4). -/
def ps_randmax : ScanParams :=
  mk_scan_params probw (17/50) (fun _ => 1) 100 0 1 1 true (fun _ => 2147483647)

/-- scan parameters of the last-column peak-start input: a 2-column row whose
samples are 0 and 1, so that the only above-threshold sample sits at the
row's last column. -/
def ps_lastcol : ScanParams :=
  mk_scan_params probw (17/50) (fun j => if j = 1 then 1 else 0) 2 0 1 1 true (fun _ => 0)

/-- scan state reached on the `ps_lastcol` row after its first iteration: the
loop variable sits at the last column 1, no peak is active. -/
def st_lastcol : ScanState :=
  { i := 1, index := -1, integral := 0, peak_max := 17/50,
    draws := 0, writes := [], reads := [0] }

/-- scan state of an active peak about to be closed by the length limit: the
peak started at column 0, the loop variable is at column 4 = peaklength, the
accumulated integral is 4 and the adapted peak maximum is 1. -/
def st_restart : ScanState :=
  { i := 4, index := 0, integral := 4, peak_max := 1,
    draws := 0, writes := [], reads := [] }

/-- unfolding of the first loop iteration: when the probability at counter 0
does not undercut the initial maximum 0, the loop proceeds to counter 1 with
the probability at 0 as the new maximum, recording the evaluation at 0. -/
theorem fmlc_loop_succ (p : ℕ → ℚ) (fuel counter : ℕ) (maxP : ℚ) :
    fmlc_loop p (fuel + 1) counter maxP =
      if p counter < maxP then ((counter : ℤ) - 1, [counter])
      else ((fmlc_loop p fuel (counter + 1) (p counter)).1,
            counter :: (fmlc_loop p fuel (counter + 1) (p counter)).2) := rfl

theorem fmlc_loop_zero_start (p : ℕ → ℚ) (h0 : ¬ p 0 < 0) :
    fmlc_loop p factorials_table_length 0 0 =
      ((fmlc_loop p 19 1 (p 0)).1, 0 :: (fmlc_loop p 19 1 (p 0)).2) := by
  show fmlc_loop p (19 + 1) 0 0 = _
  rw [fmlc_loop_succ]
  rw [if_neg h0]

/-- head of the evaluation log: every started loop evaluates the probability
at its current counter first. -/
theorem fmlc_loop_evals_head (p : ℕ → ℚ) (fuel counter : ℕ) (maxP : ℚ) :
    (fmlc_loop p (fuel + 1) counter maxP).2.head? = some counter := by
  simp only [fmlc_loop]
  split <;> simp

/-- when the first strict decrease of the probability sequence is at `n0`, the
loop started at any earlier counter (with the invariant that the maximum is
the previous probability) returns `n0 - 1`. -/
theorem fmlc_loop_first_decrease (p : ℕ → ℚ) (n0 : ℕ) (h19 : n0 ≤ 19)
    (hdec : p n0 < p (n0 - 1)) :
    ∀ fuel counter, counter + fuel = factorials_table_length → 1 ≤ counter →
      counter ≤ n0 → (∀ k, counter ≤ k → k < n0 → p (k - 1) ≤ p k) →
      (fmlc_loop p fuel counter (p (counter - 1))).1 = (n0 : ℤ) - 1 := by
  intro fuel
  induction fuel with
  | zero =>
    intro counter hsum h1c hcn hk
    simp only [factorials_table_length] at hsum
    omega
  | succ fuel ih =>
    intro counter hsum h1c hcn hk
    rcases eq_or_lt_of_le hcn with hc | hc
    · subst hc
      simp only [fmlc_loop]
      rw [if_pos hdec]
    · simp only [fmlc_loop]
      rw [if_neg (not_lt.mpr (hk counter le_rfl hc))]
      have hrec := ih (counter + 1) (by omega) (by omega) (by omega)
        (fun k hk1 hk2 => hk k (by omega) hk2)
      simpa using hrec

/-- when no strict decrease occurs anywhere in the remaining table range, the
loop falls off the end and returns the table length. -/
theorem fmlc_loop_no_decrease (p : ℕ → ℚ)
    (hk : ∀ k, 1 ≤ k → k ≤ 19 → p (k - 1) ≤ p k) :
    ∀ fuel counter, counter + fuel = factorials_table_length → 1 ≤ counter →
      (fmlc_loop p fuel counter (p (counter - 1))).1 = (factorials_table_length : ℤ) := by
  intro fuel
  induction fuel with
  | zero => intro counter _ _; rfl
  | succ fuel ih =>
    intro counter hsum h1c
    have hc19 : counter ≤ 19 := by
      simp only [factorials_table_length] at hsum; omega
    simp only [fmlc_loop]
    rw [if_neg (not_lt.mpr (hk counter h1c hc19))]
    have hrec := ih (counter + 1) (by omega) (by omega)
    simpa using hrec

/-- range of the loop result: any loop started at counter at least 1 returns a
value between 0 and the table length. -/
theorem fmlc_loop_bounds (p : ℕ → ℚ) :
    ∀ fuel counter maxP, counter + fuel = factorials_table_length → 1 ≤ counter →
      0 ≤ (fmlc_loop p fuel counter maxP).1 ∧
        (fmlc_loop p fuel counter maxP).1 ≤ (factorials_table_length : ℤ) := by
  intro fuel
  induction fuel with
  | zero =>
    intro counter maxP _ _
    constructor
    · norm_num [fmlc_loop, factorials_table_length]
    · exact le_refl _
  | succ fuel ih =>
    intro counter maxP hsum h1c
    have hc19 : counter ≤ 19 := by
      simp only [factorials_table_length] at hsum; omega
    simp only [fmlc_loop]
    split
    · constructor
      · simp only [Prod.fst]
        omega
      · simp only [Prod.fst, factorials_table_length]
        push_cast
        omega
    · have hrec := ih (counter + 1) (p counter) (by omega) (by omega)
      simpa using hrec

/-- a unimodal sequence attains its maximum over the table range at the entry
preceding its first strict decrease. -/
theorem unimodal_first_decrease_argmax (p : ℕ → ℚ) (m n0 : ℕ)
    (hm : m ≤ 19) (h1 : 1 ≤ n0) (h19 : n0 ≤ 19)
    (hdec : p n0 < p (n0 - 1))
    (hfirst : ∀ k, 1 ≤ k → k < n0 → p (k - 1) ≤ p k)
    (hup : ∀ i j, i ≤ j → j ≤ m → p i ≤ p j)
    (hdown : ∀ i j, m ≤ i → i ≤ j → j ≤ 19 → p j ≤ p i) :
    ∀ j, j ≤ 19 → p j ≤ p (n0 - 1) := by
  have hmn : m ≤ n0 - 1 := by
    by_contra h
    have hn0m : n0 ≤ m := by omega
    exact absurd (hup (n0 - 1) n0 (by omega) hn0m) (not_le.mpr hdec)
  have hchain : ∀ d, m + d ≤ n0 - 1 → p m ≤ p (m + d) := by
    intro d
    induction d with
    | zero => intro _; simp
    | succ d ihd =>
      intro hd
      have hstep : p (m + d) ≤ p (m + d + 1) := by
        have := hfirst (m + d + 1) (by omega) (by omega)
        simpa using this
      exact le_trans (ihd (by omega)) hstep
  have hmmax : p m ≤ p (n0 - 1) := by
    have := hchain (n0 - 1 - m) (by omega)
    rwa [show m + (n0 - 1 - m) = n0 - 1 by omega] at this
  intro j hj
  rcases le_or_lt j m with hjm | hjm
  · exact le_trans (hup j m hjm le_rfl) hmmax
  · exact le_trans (hdown m j le_rfl (le_of_lt hjm) hj) hmmax

/-- Claim C3: for an input x past the zero fast path, when the probability sequence
has its first strict decrease at n0 and is unimodal with mode m over the table
range, the search returns n0 - 1, and that value is an argmax of the
probability over 0..19. -/
theorem claim_C3_first_decrease_argmax (P : ℕ → ℚ → ℚ) (x : ℚ) (m n0 : ℕ)
    (hfast : c_round (x + 1/4) ≠ 0)
    (h0 : ¬ P 0 x < 0)
    (h1 : 1 ≤ n0) (h19 : n0 ≤ 19)
    (hdec : P n0 x < P (n0 - 1) x)
    (hfirst : ∀ k, k ≤ 19 → 1 ≤ k → k < n0 → P (k - 1) x ≤ P k x)
    (hm : m ≤ 19)
    (hup : ∀ i, i ≤ 19 → ∀ j, j ≤ 19 → i ≤ j → j ≤ m → P i x ≤ P j x)
    (hdown : ∀ i, i ≤ 19 → ∀ j, j ≤ 19 → m ≤ i → i ≤ j → P j x ≤ P i x) :
    c_find_most_likely_counts P x = (n0 : ℤ) - 1 ∧
      ∀ j, j ≤ 19 → P j x ≤ P (n0 - 1) x := by
  constructor
  · unfold c_find_most_likely_counts c_find_most_likely_counts_full
    rw [if_neg hfast, fmlc_loop_zero_start (fun n => P n x) h0]
    exact fmlc_loop_first_decrease (fun n => P n x) n0 h19 hdec 19 1 rfl (by omega) h1
      (fun k hk1 hk2 => hfirst k (by omega) hk1 hk2)
  · exact unimodal_first_decrease_argmax (fun n => P n x) m n0 hm h1 h19 hdec
      (fun k hk1 hk2 => hfirst k (by omega) hk1 hk2)
      (fun i j hij hjm => hup i (by omega) j (by omega) hij hjm)
      (fun i j hmi hij hj19 => hdown i (by omega) j hj19 hmi hij)

/-- Claim C6: when no strict decrease of the probability sequence occurs through the
whole table range, the search returns the saturating cap
factorials_table_length = 20. -/
theorem claim_C6_saturating_cap (P : ℕ → ℚ → ℚ) (x : ℚ)
    (hfast : c_round (x + 1/4) ≠ 0)
    (h0 : ¬ P 0 x < 0)
    (hnodec : ∀ k, k ≤ 19 → 1 ≤ k → P (k - 1) x ≤ P k x) :
    c_find_most_likely_counts P x = 20 := by
  unfold c_find_most_likely_counts c_find_most_likely_counts_full
  rw [if_neg hfast, fmlc_loop_zero_start (fun n => P n x) h0]
  exact fmlc_loop_no_decrease (fun n => P n x) (fun k h1 h2 => hnodec k h2 h1) 19 1 rfl
    (by omega)

/-- Claim C9: whenever the comparison of the probability at count 0 against the
initial maximum 0 does not fire (which is the case for the probability the
source computes: the value at n = 0 is a float NaN, and NaN compares false),
the count search returns a value in the closed range 0..20; in particular it
never returns -1. -/
theorem claim_C9_result_range (P : ℕ → ℚ → ℚ) (x : ℚ) (h0 : ¬ P 0 x < 0) :
    0 ≤ c_find_most_likely_counts P x ∧ c_find_most_likely_counts P x ≤ 20 := by
  unfold c_find_most_likely_counts c_find_most_likely_counts_full
  by_cases hfast : c_round (x + 1/4) = 0
  · rw [if_pos hfast]
    constructor <;> norm_num
  · rw [if_neg hfast, fmlc_loop_zero_start (fun n => P n x) h0]
    exact fmlc_loop_bounds (fun n => P n x) 19 1 (P 0 x) rfl (by omega)

/-- Claim C7: the zero fast path of both variants: when round(x + 0.25) = 0 the
canonical search returns 0 with no probability evaluation, and when
round(x) = 0 the legacy search returns 0 with no probability evaluation. -/
theorem claim_C7_zero_fast_path (P : ℕ → ℚ → ℚ) (x : ℚ) :
    (c_round (x + 1/4) = 0 →
      c_find_most_likely_counts P x = 0 ∧ c_find_most_likely_counts_evals P x = []) ∧
    (c_round x = 0 →
      legacy_find_most_likely_counts P x = 0 ∧
        legacy_find_most_likely_counts_evals P x = []) := by
  constructor
  · intro h
    unfold c_find_most_likely_counts c_find_most_likely_counts_evals
      c_find_most_likely_counts_full
    rw [if_pos h]
    exact ⟨rfl, rfl⟩
  · intro h
    unfold legacy_find_most_likely_counts legacy_find_most_likely_counts_evals
      legacy_find_most_likely_counts_full
    rw [if_pos h]
    exact ⟨rfl, rfl⟩

/-- Claim C2 (amended): on the zero fast path no probability is evaluated; on every
other input the general probability formula IS evaluated at n = 0 first — the
code contains no special case for n = 0 inside the search loop. -/
theorem claim_C2_amended_formula_evaluated_at_zero (P : ℕ → ℚ → ℚ) (x : ℚ) :
    (c_round (x + 1/4) = 0 → c_find_most_likely_counts_evals P x = []) ∧
    (c_round (x + 1/4) ≠ 0 →
      (c_find_most_likely_counts_evals P x).head? = some 0) := by
  constructor
  · intro h
    unfold c_find_most_likely_counts_evals c_find_most_likely_counts_full
    rw [if_pos h]
  · intro h
    unfold c_find_most_likely_counts_evals c_find_most_likely_counts_full
    rw [if_neg h]
    exact fmlc_loop_evals_head (fun n => P n x) 19 0 0

/-- Counterexample to claim C2: at input x = 1 the search runs past the fast path and
the probability formula is evaluated at n = 0, contrary to the claim that the
general formula is never evaluated there. -/
theorem claim_C2_counterexample :
    c_round ((1 : ℚ) + 1/4) ≠ 0 ∧ 0 ∈ c_find_most_likely_counts_evals probw 1 := by
  constructor
  · norm_num [c_round]
  · norm_num [c_find_most_likely_counts_evals, c_find_most_likely_counts_full, c_round,
      fmlc_loop, probw, factorials_table_length]

/-- Claim C5: the factorial table built by create_factorials_table(20) has entry 0
equal to 1, satisfies the recurrence table[i] = i * table[i-1] for i in 1..19,
and therefore holds exactly the factorials 0! .. 19!. -/
theorem claim_C5_factorials_table :
    factorials_table.getD 0 0 = 1 ∧
    (∀ i, i ≤ 19 → 1 ≤ i → factorials_table.getD i 0 =
        (i : ℤ) * factorials_table.getD (i - 1) 0) ∧
    (∀ i, i ≤ 19 → factorials_table.getD i 0 = (Nat.factorial i : ℤ)) := by
  refine ⟨by decide, by decide, by decide⟩

/-- Claim C8: in the direct counting mode, the result at any position (k, i) is the
count search applied to (pixel - baseline) / countlevel of the input pixel at
the same position, and depends on nothing else. -/
theorem claim_C8_direct_mode (P : ℕ → ℚ → ℚ) (image : List (List ℚ))
    (baseline countlevel : ℚ) (k i : ℕ) (imrow : List ℚ) (pix : ℚ)
    (hk : image[k]? = some imrow) (hi : imrow[i]? = some pix) :
    ((c_find_most_likely_counts_image P image baseline countlevel)[k]?).bind
        (fun r => r[i]?) =
      some ((c_find_most_likely_counts P ((pix - baseline) / countlevel) : ℤ) : ℚ) := by
  unfold c_find_most_likely_counts_image
  simp [List.getElem?_map, hk, hi]

/-- Witness for claim C3: instantiated at the unimodal sample family probw (values
0, 1, 2, 1, 0, ... with mode m = 2 and first decrease at n0 = 3) and x = 1. -/
theorem claim_C3_witness :
    c_find_most_likely_counts probw 1 = (3 : ℤ) - 1 ∧
      ∀ j, j ≤ 19 → probw j 1 ≤ probw (3 - 1) 1 := by
  refine claim_C3_first_decrease_argmax probw 1 2 3 ?_ ?_ ?_ ?_ ?_ ?_ ?_ ?_ ?_
  · norm_num [c_round]
  · norm_num [probw]
  · omega
  · omega
  · norm_num [probw]
  · intro k _ h1 h3
    interval_cases k <;> norm_num [probw]
  · omega
  · intro i _ j _ hij hj2
    simp only [probw, if_pos (le_trans hij hj2), if_pos hj2]
    exact_mod_cast hij
  · intro i _ j hj19 h2i hij
    simp only [probw]
    rcases Nat.lt_or_ge 2 i with h2i' | h2i'
    · rw [if_neg (by omega), if_neg (by omega)]
      have : (i : ℚ) ≤ (j : ℚ) := by exact_mod_cast hij
      linarith
    · have hi2 : i = 2 := by omega
      subst hi2
      rw [if_pos le_rfl]
      rcases Nat.lt_or_ge 2 j with h2j | h2j
      · rw [if_neg (by omega)]
        have : (3 : ℚ) ≤ (j : ℚ) := by exact_mod_cast h2j
        push_cast
        linarith
      · rw [if_pos h2j]
        exact_mod_cast h2j

/-- Witness for claim C6: with a strictly increasing probability family the search
at x = 25 (a very large input, past the fast path) returns the cap 20. -/
theorem claim_C6_witness : c_find_most_likely_counts probinc 25 = 20 := by
  refine claim_C6_saturating_cap probinc 25 ?_ ?_ ?_
  · norm_num [c_round]
  · norm_num [probinc]
  · intro k _ h1
    simp only [probinc]
    exact_mod_cast Nat.sub_le k 1

/-- Witness for claim C9: at the negative input x = -7 the result lies in 0..20. -/
theorem claim_C9_witness :
    0 ≤ c_find_most_likely_counts probw (-7) ∧
      c_find_most_likely_counts probw (-7) ≤ 20 :=
  claim_C9_result_range probw (-7) (by norm_num [probw])

/-- Witness for claim C7: at x = 0 both variants return 0 (CountEstimator(0.0) = 0). -/
theorem claim_C7_witness :
    c_find_most_likely_counts probw 0 = 0 ∧
      legacy_find_most_likely_counts probw 0 = 0 :=
  ⟨((claim_C7_zero_fast_path probw 0).1 (by norm_num [c_round])).1,
   ((claim_C7_zero_fast_path probw 0).2 (by norm_num [c_round])).1⟩

/-- Witness for the amended claim C2: at x = 0 the fast path evaluates nothing, and
at x = 1 the first evaluation of the probability formula is at n = 0. -/
theorem claim_C2_amended_witness :
    c_find_most_likely_counts_evals probw 0 = [] ∧
      (c_find_most_likely_counts_evals probw 1).head? = some 0 :=
  ⟨(claim_C2_amended_formula_evaluated_at_zero probw 0).1 (by norm_num [c_round]),
   (claim_C2_amended_formula_evaluated_at_zero probw 1).2 (by norm_num [c_round])⟩

/-- Witness for claim C5: the recurrence instantiated at the top entry i = 19. -/
theorem claim_C5_witness :
    factorials_table.getD 19 0 = (19 : ℤ) * factorials_table.getD 18 0 :=
  claim_C5_factorials_table.2.1 19 (by decide) (by decide)

/-- Witness for claim C8: a one-pixel image with pixel value 1, baseline 0,
countlevel 1. -/
theorem claim_C8_witness :
    ((c_find_most_likely_counts_image probw [[1]] 0 1)[(0 : ℕ)]?).bind
        (fun r => r[(0 : ℕ)]?) =
      some ((c_find_most_likely_counts probw ((1 - 0) / 1) : ℤ) : ℚ) :=
  claim_C8_direct_mode probw [[1]] 0 1 0 0 [1] 1 rfl rfl

/-- truncation of a nonnegative rational is its floor. -/
theorem c_trunc_of_nonneg (q : ℚ) (h : 0 ≤ q) : c_trunc q = ⌊q⌋ := if_pos h

/-- the restart offset is nonnegative for a nonnegative peak length. -/
theorem rand_randnum_nonneg (r : ℕ) (pl : ℤ) (hpl : 0 ≤ pl) :
    0 ≤ rand_randnum r pl := by
  unfold rand_randnum
  have hq : 0 ≤ (r : ℚ) / (c_RAND_MAX : ℚ) * (pl : ℚ) := by
    apply mul_nonneg
    · apply div_nonneg (by positivity) (by norm_num [c_RAND_MAX])
    · exact_mod_cast hpl
  rw [c_trunc_of_nonneg _ hq]
  exact Int.floor_nonneg.mpr hq

/-- the restart offset never exceeds the peak length (closed upper bound). -/
theorem rand_randnum_le (r : ℕ) (pl : ℤ) (hr : r ≤ c_RAND_MAX) (hpl : 0 ≤ pl) :
    rand_randnum r pl ≤ pl := by
  unfold rand_randnum
  have hdiv : (r : ℚ) / (c_RAND_MAX : ℚ) ≤ 1 := by
    rw [div_le_one (by norm_num [c_RAND_MAX])]
    exact_mod_cast hr
  have hq : 0 ≤ (r : ℚ) / (c_RAND_MAX : ℚ) * (pl : ℚ) := by
    apply mul_nonneg
    · apply div_nonneg (by positivity) (by norm_num [c_RAND_MAX])
    · exact_mod_cast hpl
  rw [c_trunc_of_nonneg _ hq]
  calc ⌊(r : ℚ) / (c_RAND_MAX : ℚ) * (pl : ℚ)⌋
      ≤ ⌊((pl : ℤ) : ℚ)⌋ := by
        apply Int.floor_le_floor
        exact mul_le_of_le_one_left (by exact_mod_cast hpl) hdiv
    _ = pl := Int.floor_intCast pl

/-- once the loop variable has reached the width, the scan makes no further
step regardless of remaining fuel. -/
theorem scan_go_exit (ps : ScanParams) :
    ∀ fuel st, ¬ st.i < ps.width → scan_go ps fuel st = st
  | 0, _, _ => rfl
  | _ + 1, _, h => by simp [scan_go, h]

/-- Claim C10: when the scan reaches the last column of a row with no active peak
and the sample there is above the detection threshold, a peak is started in
the scan state but the loop exits without closing it: nothing further is ever
written to the result row, and the final state still carries the open peak at
the last column. -/
theorem claim_C10_last_column_peak_lost (ps : ScanParams) (st : ScanState) (fuel : ℕ)
    (hi : st.i = ps.width - 1) (hidx : st.index = -1)
    (habove : ps.row (ps.width - 1) - ps.baseline > st.peak_max * ps.threshold) :
    (scan_go ps fuel st).writes = st.writes ∧
      (1 ≤ fuel → (scan_go ps fuel st).index = ps.width - 1) := by
  cases fuel with
  | zero => exact ⟨rfl, by omega⟩
  | succ fuel =>
    have hlt : st.i < ps.width := by rw [hi]; omega
    have hstart : ps.row st.i - ps.baseline > st.peak_max * ps.threshold := by
      rw [hi]; exact habove
    have hstep : scan_step ps st =
        { st with index := st.i, integral := ps.row st.i,
                  reads := (st.reads ++ [st.i]) ++ [st.i], i := st.i + 1 } := by
      simp only [scan_step, step_start]
      rw [if_neg (by simp [hidx]), if_neg (by simp [hidx]), if_pos hidx, if_pos hstart]
    show (scan_go ps (fuel + 1) st).writes = st.writes ∧ _
    unfold scan_go
    rw [if_pos hlt, hstep,
      scan_go_exit ps fuel _ (by simp only [hi]; omega)]
    exact ⟨rfl, fun _ => by simp [hi]⟩

/-- Witness for claim C10: a 2-column row with sample 0 then 1; from the reachable
state at the last column with no active peak, the remaining scan writes
nothing and leaves the peak open at column 1. -/
theorem claim_C10_witness :
    (scan_go ps_lastcol 5 st_lastcol).writes = st_lastcol.writes ∧
      (1 ≤ 5 → (scan_go ps_lastcol 5 st_lastcol).index = ps_lastcol.width - 1) := by
  refine claim_C10_last_column_peak_lost ps_lastcol st_lastcol 5 ?_ ?_ ?_
  · norm_num [st_lastcol, ps_lastcol, mk_scan_params]
  · rfl
  · norm_num [st_lastcol, ps_lastcol, mk_scan_params]

/-- Claim C4 (amended): whenever an active peak is closed with the closing sample
still above the adaptive detection threshold, exactly one random draw is
consumed and the scan restarts a peak at column index + 1 + randnum, where
randnum = trunc(rand/RAND_MAX * peaklength) lies in the closed range
[0, peaklength] (the upper endpoint is attained: see the counterexample, where
the draw RAND_MAX yields randnum = peaklength); the step reads only the
closing column and the restart column (the skipped columns are not examined),
seeds the new integral with the sample at the restart column, and writes the
closed peak's value at its start index. -/
theorem claim_C4_amended_randomized_restart (ps : ScanParams) (st : ScanState)
    (hidx : 0 ≤ st.index)
    (hclose : ps.row st.i - ps.baseline ≤ st.peak_max * ps.threshold ∨
      st.i - st.index ≥ ps.peaklength ∨ st.i = ps.width - 1)
    (habove : ps.row st.i - ps.baseline > st.peak_max * ps.threshold)
    (hpl : 0 < ps.peaklength)
    (hr : ps.randStream st.draws ≤ c_RAND_MAX) :
    0 ≤ rand_randnum (ps.randStream st.draws) ps.peaklength ∧
    rand_randnum (ps.randStream st.draws) ps.peaklength ≤ ps.peaklength ∧
    (scan_step ps st).index =
      st.index + 1 + rand_randnum (ps.randStream st.draws) ps.peaklength ∧
    (scan_step ps st).integral =
      ps.row (st.index + 1 + rand_randnum (ps.randStream st.draws) ps.peaklength) ∧
    (scan_step ps st).i =
      st.index + 1 + rand_randnum (ps.randStream st.draws) ps.peaklength + 1 ∧
    (scan_step ps st).draws = st.draws + 1 ∧
    (scan_step ps st).reads = st.reads ++ [st.i, st.i,
      st.index + 1 + rand_randnum (ps.randStream st.draws) ps.peaklength] ∧
    (scan_step ps st).writes = st.writes ++ [(st.index,
      if ps.only_integrate then st.integral
      else ((c_find_most_likely_counts ps.P (st.integral / ps.counts_divisor) : ℤ) : ℚ))] := by
  have hrnn := rand_randnum_nonneg (ps.randStream st.draws) ps.peaklength (le_of_lt hpl)
  have hne : st.index ≠ -1 := by omega
  have hstep : scan_step ps st =
      { st with
        i := st.index + 1 + rand_randnum (ps.randStream st.draws) ps.peaklength + 1,
        index := st.index + 1 + rand_randnum (ps.randStream st.draws) ps.peaklength,
        integral := ps.row (st.index + 1 + rand_randnum (ps.randStream st.draws) ps.peaklength),
        peak_max := ps.peak_height,
        draws := st.draws + 1,
        writes := st.writes ++ [(st.index,
          if ps.only_integrate then st.integral
          else ((c_find_most_likely_counts ps.P (st.integral / ps.counts_divisor) : ℤ) : ℚ))],
        reads := (st.reads ++ [st.i, st.i]) ++
          [st.index + 1 + rand_randnum (ps.randStream st.draws) ps.peaklength] } := by
    simp only [scan_step, step_start]
    rw [if_pos ⟨hne, hclose⟩, if_pos habove,
      if_neg (by omega :
        ¬ st.index + 1 + rand_randnum (ps.randStream st.draws) ps.peaklength = -1)]
  refine ⟨hrnn, rand_randnum_le _ _ hr (le_of_lt hpl), ?_, ?_, ?_, ?_, ?_, ?_⟩ <;>
    simp [hstep]

/-- Witness for the amended claim C4: the length-truncated peak of `st_restart`
under the all-ones row of `ps_randmax`, whose next raw draw is RAND_MAX. -/
theorem claim_C4_amended_witness :
    0 ≤ rand_randnum (ps_randmax.randStream st_restart.draws) ps_randmax.peaklength ∧
    rand_randnum (ps_randmax.randStream st_restart.draws) ps_randmax.peaklength ≤
      ps_randmax.peaklength ∧
    (scan_step ps_randmax st_restart).index = st_restart.index + 1 +
      rand_randnum (ps_randmax.randStream st_restart.draws) ps_randmax.peaklength ∧
    (scan_step ps_randmax st_restart).integral = ps_randmax.row (st_restart.index + 1 +
      rand_randnum (ps_randmax.randStream st_restart.draws) ps_randmax.peaklength) ∧
    (scan_step ps_randmax st_restart).i = st_restart.index + 1 +
      rand_randnum (ps_randmax.randStream st_restart.draws) ps_randmax.peaklength + 1 ∧
    (scan_step ps_randmax st_restart).draws = st_restart.draws + 1 ∧
    (scan_step ps_randmax st_restart).reads = st_restart.reads ++ [st_restart.i,
      st_restart.i, st_restart.index + 1 +
        rand_randnum (ps_randmax.randStream st_restart.draws) ps_randmax.peaklength] ∧
    (scan_step ps_randmax st_restart).writes = st_restart.writes ++ [(st_restart.index,
      if ps_randmax.only_integrate then st_restart.integral
      else ((c_find_most_likely_counts ps_randmax.P
        (st_restart.integral / ps_randmax.counts_divisor) : ℤ) : ℚ))] := by
  refine claim_C4_amended_randomized_restart ps_randmax st_restart ?_ ?_ ?_ ?_ ?_
  · norm_num [st_restart]
  · right; left
    norm_num [st_restart, ps_randmax, mk_scan_params, c_round]
  · norm_num [st_restart, ps_randmax, mk_scan_params]
  · norm_num [ps_randmax, mk_scan_params, c_round]
  · norm_num [ps_randmax, mk_scan_params, c_RAND_MAX]

/-- Counterexample to claim C4: running the scan on the all-ones row of `ps_randmax`
(every raw draw equal to RAND_MAX), the peak started at column 0 is truncated
at column 4 = peaklength and the restart lands at column 5 =
index + 1 + peaklength, which is outside the claimed half-open range
[index + 1, index + 1 + peaklength). -/
theorem claim_C4_counterexample :
    (c_electron_counting_row ps_randmax 5).index = 0 + 1 + 4 ∧
      ¬ (c_electron_counting_row ps_randmax 5).index < 0 + 1 + 4 := by
  have h : (c_electron_counting_row ps_randmax 5).index = 5 := by
    norm_num [c_electron_counting_row, init_scan_state, scan_go, scan_step, step_start,
      ps_randmax, mk_scan_params, rand_randnum, c_trunc, c_round, c_RAND_MAX]
  rw [h]
  norm_num

/-- Claim C1 (refuted, code bug): on the 2-column failing input of `ps_oob`, the scan reads the image at
column 2, which is not below the row width 2 — an out-of-bounds access (the
source is compiled with bounds checking disabled). -/
theorem claim_C1_oob_read :
    ∃ c ∈ (c_electron_counting_row ps_oob 10).reads, ps_oob.width ≤ c := by
  refine ⟨2, ?_, by norm_num [ps_oob, mk_scan_params]⟩
  norm_num [c_electron_counting_row, init_scan_state, scan_go, scan_step, step_start,
    ps_oob, mk_scan_params, rand_randnum, c_trunc, c_round, c_RAND_MAX]
